import Mathlib

/-!
Verification of the Ovozly speech pipeline: diarization-segment merging,
concurrent transcription fan-out, token-to-diarization alignment, the
proportional fallback distribution, and the PyAnnote AI client
classification.  Times are modeled as exact rationals; Python dicts become
structures; remote HTTP outcomes become explicit data.
-/

namespace Ovozly

/-- A diarization segment as produced by PyAnnote: a dict with `speaker`,
`start` and `end` keys (the `end` key is named `stop` here since `end` is a
Lean keyword).  Times in seconds, modeled as rationals. -/
structure DiarSeg where
  speaker : String
  start : ℚ
  stop : ℚ
  deriving DecidableEq, Repr

namespace AishaSTT

/-- The loop of `_merge_consecutive_speakers` (backend/ai/aisha_stt.py,
lines 151-163): `current` is the accumulator; a segment with the same
speaker extends `current["end"]`, a different speaker flushes `current`. -/
def mergeAux (current : DiarSeg) : List DiarSeg → List DiarSeg
  | [] => [current]
  | seg :: rest =>
    if seg.speaker = current.speaker then
      mergeAux { current with stop := seg.stop } rest
    else
      current :: mergeAux seg rest

/-- Function `_merge_consecutive_speakers` (backend/ai/aisha_stt.py, lines 143-164):
merge consecutive segments from the same speaker.  Empty input is returned
as is; otherwise the first segment seeds the accumulator. -/
def merge_consecutive_speakers (segments : List DiarSeg) : List DiarSeg :=
  match segments with
  | [] => []
  | first :: rest => mergeAux first rest

end AishaSTT

/-- Characters of Python `str.strip()`: drop leading and trailing
whitespace. -/
def stripChars (l : List Char) : List Char :=
  ((l.dropWhile Char.isWhitespace).reverse.dropWhile Char.isWhitespace).reverse

/-- Python `str.strip()` with no argument: strip whitespace from both
ends (structurally recursive model over the string's characters). -/
def pyStrip (s : String) : String :=
  String.mk (stripChars s.data)

/-- Helper for `pySplit`: walk the characters, `acc` holds the reversed
current word; whitespace runs separate words and produce no empties. -/
def splitWordsAux : List Char → List Char → List String
  | [], acc => if acc = [] then [] else [String.mk acc.reverse]
  | c :: rest, acc =>
    if c.isWhitespace then
      if acc = [] then splitWordsAux rest []
      else String.mk acc.reverse :: splitWordsAux rest []
    else splitWordsAux rest (c :: acc)

/-- Python `str.split()` with no argument: split on whitespace runs,
dropping empty chunks. -/
def pySplit (s : String) : List String :=
  splitWordsAux s.data []

/-- A transcribed segment: a dict with `speaker`, `start`, `end` and `text`
keys (whisper_api.py result shape). -/
structure TSeg where
  speaker : String
  start : ℚ
  stop : ℚ
  text : String
  deriving DecidableEq, Repr

namespace WhisperAPI

/-- The loop of `_merge_consecutive_speakers` (backend/ai/whisper_api.py,
lines 294-308): same-speaker segments extend `current["end"]` and, when the
incoming text is non-empty, append it to `current["text"]` with a single
space and `.strip()`. -/
def mergeAux (current : TSeg) : List TSeg → List TSeg
  | [] => [current]
  | seg :: rest =>
    if seg.speaker = current.speaker then
      mergeAux
        { current with
            stop := seg.stop,
            text := if seg.text ≠ "" then pyStrip (current.text ++ " " ++ seg.text)
                    else current.text }
        rest
    else
      current :: mergeAux seg rest

/-- Function `_merge_consecutive_speakers` (backend/ai/whisper_api.py, lines 287-309). -/
def merge_consecutive_speakers (segments : List TSeg) : List TSeg :=
  match segments with
  | [] => []
  | first :: rest => mergeAux first rest

end WhisperAPI

section MergeLemmas

/-- The head of `AishaSTT.mergeAux current l` carries `current`'s speaker. -/
theorem aishaMergeAux_head_speaker (l : List DiarSeg) :
    ∀ current : DiarSeg,
      ∃ c rest, AishaSTT.mergeAux current l = c :: rest ∧ c.speaker = current.speaker := by
  induction l with
  | nil => intro current; exact ⟨current, [], rfl, rfl⟩
  | cons seg rest ih =>
    intro current
    by_cases h : seg.speaker = current.speaker
    · obtain ⟨c, tl, heq, hspk⟩ := ih { current with stop := seg.stop }
      exact ⟨c, tl, by simp [AishaSTT.mergeAux, h, heq], hspk⟩
    · exact ⟨current, AishaSTT.mergeAux seg rest,
        by simp [AishaSTT.mergeAux, h], rfl⟩

/-- Adjacent segments in the output of `AishaSTT.mergeAux` have distinct
speakers. -/
theorem aishaMergeAux_chain (l : List DiarSeg) :
    ∀ current : DiarSeg,
      List.Chain' (fun a b : DiarSeg => a.speaker ≠ b.speaker)
        (AishaSTT.mergeAux current l) := by
  induction l with
  | nil => intro current; simp [AishaSTT.mergeAux]
  | cons seg rest ih =>
    intro current
    by_cases h : seg.speaker = current.speaker
    · simpa [AishaSTT.mergeAux, h] using ih { current with stop := seg.stop }
    · obtain ⟨c, tl, heq, hspk⟩ := aishaMergeAux_head_speaker rest seg
      have hchain := ih seg
      rw [heq] at hchain
      simp only [AishaSTT.mergeAux, if_neg h, heq]
      exact List.Chain'.cons (by rw [hspk]; exact fun hc => h hc.symm) hchain

/-- On a list whose adjacent speakers already differ, the merge loop is the
identity. -/
theorem aishaMergeAux_of_chain (l : List DiarSeg) :
    ∀ current : DiarSeg,
      List.Chain' (fun a b : DiarSeg => a.speaker ≠ b.speaker) (current :: l) →
      AishaSTT.mergeAux current l = current :: l := by
  induction l with
  | nil => intro current _; rfl
  | cons seg rest ih =>
    intro current hchain
    rw [List.chain'_cons] at hchain
    have hne : ¬ seg.speaker = current.speaker := fun h => hchain.1 h.symm
    simp [AishaSTT.mergeAux, hne, ih seg hchain.2]

/-- The head of `WhisperAPI.mergeAux current l` carries `current`'s speaker. -/
theorem whisperMergeAux_head_speaker (l : List TSeg) :
    ∀ current : TSeg,
      ∃ c rest, WhisperAPI.mergeAux current l = c :: rest ∧ c.speaker = current.speaker := by
  induction l with
  | nil => intro current; exact ⟨current, [], rfl, rfl⟩
  | cons seg rest ih =>
    intro current
    by_cases h : seg.speaker = current.speaker
    · obtain ⟨c, tl, heq, hspk⟩ := ih
        { current with
            stop := seg.stop,
            text := if seg.text ≠ "" then pyStrip (current.text ++ " " ++ seg.text)
                    else current.text }
      refine ⟨c, tl, ?_, hspk⟩
      simp only [ne_eq, ite_not] at heq
      simp [WhisperAPI.mergeAux, h, heq]
    · exact ⟨current, WhisperAPI.mergeAux seg rest,
        by simp [WhisperAPI.mergeAux, h], rfl⟩

/-- Adjacent segments in the output of `WhisperAPI.mergeAux` have distinct
speakers. -/
theorem whisperMergeAux_chain (l : List TSeg) :
    ∀ current : TSeg,
      List.Chain' (fun a b : TSeg => a.speaker ≠ b.speaker)
        (WhisperAPI.mergeAux current l) := by
  induction l with
  | nil => intro current; simp [WhisperAPI.mergeAux]
  | cons seg rest ih =>
    intro current
    by_cases h : seg.speaker = current.speaker
    · simpa [WhisperAPI.mergeAux, h] using ih
        { current with
            stop := seg.stop,
            text := if seg.text ≠ "" then pyStrip (current.text ++ " " ++ seg.text)
                    else current.text }
    · obtain ⟨c, tl, heq, hspk⟩ := whisperMergeAux_head_speaker rest seg
      have hchain := ih seg
      rw [heq] at hchain
      simp only [WhisperAPI.mergeAux, if_neg h, heq]
      exact List.Chain'.cons (by rw [hspk]; exact fun hc => h hc.symm) hchain

/-- On a list whose adjacent speakers already differ, the whisper merge loop
is the identity. -/
theorem whisperMergeAux_of_chain (l : List TSeg) :
    ∀ current : TSeg,
      List.Chain' (fun a b : TSeg => a.speaker ≠ b.speaker) (current :: l) →
      WhisperAPI.mergeAux current l = current :: l := by
  induction l with
  | nil => intro current _; rfl
  | cons seg rest ih =>
    intro current hchain
    rw [List.chain'_cons] at hchain
    have hne : ¬ seg.speaker = current.speaker := fun h => hchain.1 h.symm
    simp [WhisperAPI.mergeAux, hne, ih seg hchain.2]

end MergeLemmas

/-- C3: the consecutive-same-speaker merge is idempotent, both for the
AISHA variant (no text field) and the Whisper variant (text concatenation):
for every ordered sequence `S`, `merge (merge S) = merge S`. -/
theorem merge_idempotent :
    (∀ S : List DiarSeg,
       AishaSTT.merge_consecutive_speakers (AishaSTT.merge_consecutive_speakers S) =
         AishaSTT.merge_consecutive_speakers S) ∧
    (∀ S : List TSeg,
       WhisperAPI.merge_consecutive_speakers (WhisperAPI.merge_consecutive_speakers S) =
         WhisperAPI.merge_consecutive_speakers S) := by
  constructor
  · intro S
    match S with
    | [] => rfl
    | first :: rest =>
      show AishaSTT.merge_consecutive_speakers (AishaSTT.mergeAux first rest) =
        AishaSTT.mergeAux first rest
      obtain ⟨c, tl, heq, _⟩ := aishaMergeAux_head_speaker rest first
      have hchain := aishaMergeAux_chain rest first
      rw [heq] at hchain ⊢
      exact aishaMergeAux_of_chain tl c hchain
  · intro S
    match S with
    | [] => rfl
    | first :: rest =>
      show WhisperAPI.merge_consecutive_speakers (WhisperAPI.mergeAux first rest) =
        WhisperAPI.mergeAux first rest
      obtain ⟨c, tl, heq, _⟩ := whisperMergeAux_head_speaker rest first
      have hchain := whisperMergeAux_chain rest first
      rw [heq] at hchain ⊢
      exact whisperMergeAux_of_chain tl c hchain

/-- C4: the merge is a single left-to-right scan — equal speakers extend the
accumulator's `end` to the next segment's `end`, a different speaker flushes
the accumulator; merging `[{A,0,2},{A,2,5},{B,5,7}]` yields
`[{A,0,5},{B,5,7}]`; empty input yields empty output; a single segment is
returned unchanged. -/
theorem merge_scan_spec :
    AishaSTT.merge_consecutive_speakers
        [⟨"A", 0, 2⟩, ⟨"A", 2, 5⟩, ⟨"B", 5, 7⟩] =
      [⟨"A", 0, 5⟩, ⟨"B", 5, 7⟩] ∧
    AishaSTT.merge_consecutive_speakers [] = [] ∧
    (∀ s : DiarSeg, AishaSTT.merge_consecutive_speakers [s] = [s]) ∧
    (∀ (current seg : DiarSeg) (rest : List DiarSeg),
       AishaSTT.mergeAux current (seg :: rest) =
         if seg.speaker = current.speaker then
           AishaSTT.mergeAux { current with stop := seg.stop } rest
         else
           current :: AishaSTT.mergeAux seg rest) := by
  refine ⟨by decide, rfl, fun s => rfl, fun current seg rest => rfl⟩

/-! ## Transcription fan-out (backend/ai/aisha_stt.py)

`transcribe_with_diarization` (lines 111-137) pre-sizes
`results = [None] * len(audio_segments)`, submits one future per index, and
as futures complete (in arbitrary order) writes `results[idx] = text` where
`text = transcribe_segment(chunk_idx)`.  The completion order is modeled as
a list `order` of indices (a permutation of `range n` when every future
completes exactly once); the writes are modeled by a left fold of
`List.set`.  `f i` stands for the value of `transcribe_segment` on segment
`i`'s audio chunk. -/

/-- The pre-sized result container after all futures completed, in
completion order `order` (the `as_completed` loop of aisha_stt.py,
lines 112-127). -/
def fanoutResults (f : ℕ → String) (n : ℕ) (order : List ℕ) : List (Option String) :=
  order.foldl (fun res idx => res.set idx (some (f idx))) (List.replicate n none)

/-- The texts of the final result list (aisha_stt.py, lines 130-137):
entry `i` is `results[i] or ""`. -/
def transcribeAllTexts (f : ℕ → String) (n : ℕ) (order : List ℕ) : List String :=
  (fanoutResults f n order).map (fun r => r.getD "")

theorem fanout_fold_length (f : ℕ → String) (order : List ℕ)
    (res : List (Option String)) :
    (order.foldl (fun res idx => res.set idx (some (f idx))) res).length = res.length := by
  induction order generalizing res with
  | nil => rfl
  | cons a rest ih => simpa using ih (res.set a (some (f a)))

/-- Slot `i` of the fold holds `f i` as soon as `i` was written before the
fold or occurs in the remaining completion order: each worker writes only
its own index and the written value does not depend on completion time. -/
theorem fanout_fold_get (f : ℕ → String) (order : List ℕ)
    (res : List (Option String)) (i : ℕ) (hi : i < res.length)
    (h : res[i]? = some (some (f i)) ∨ i ∈ order) :
    (order.foldl (fun res idx => res.set idx (some (f idx))) res)[i]? = some (some (f i)) := by
  induction order generalizing res with
  | nil =>
    rcases h with h | h
    · exact h
    · exact absurd h (List.not_mem_nil i)
  | cons a rest ih =>
    show (rest.foldl (fun res idx => res.set idx (some (f idx)))
      (res.set a (some (f a))))[i]? = some (some (f i))
    rcases eq_or_ne i a with rfl | hne
    · exact ih (res.set i (some (f i))) (by simpa using hi)
        (Or.inl (by rw [List.getElem?_set_self (by simpa using hi)]))
    · refine ih (res.set a (some (f a))) (by simpa using hi) ?_
      rcases h with h | h
      · exact Or.inl (by rw [List.getElem?_set_ne hne.symm]; exact h)
      · rcases List.mem_cons.mp h with h' | h'
        · exact absurd h' hne
        · exact Or.inr h'

/-- C1: for every batch of `n ≥ 1` segments and every completion order of
the concurrent transcription calls (any permutation of the indices), the
fan-out returns exactly `n` texts and the text at index `i` is the
transcription result `f i` of input segment `i`. -/
theorem transcribeAll_order_preserved (f : ℕ → String) (n : ℕ) (order : List ℕ)
    (hperm : order.Perm (List.range n)) (_hn : 1 ≤ n) :
    (transcribeAllTexts f n order).length = n ∧
    ∀ i, i < n → (transcribeAllTexts f n order)[i]? = some (f i) := by
  have hlen : (fanoutResults f n order).length = n := by
    simpa using fanout_fold_length f order (List.replicate n none)
  constructor
  · simpa [transcribeAllTexts] using hlen
  · intro i hi
    have hmem : i ∈ order := hperm.mem_iff.mpr (List.mem_range.mpr hi)
    have hslot : (fanoutResults f n order)[i]? = some (some (f i)) :=
      fanout_fold_get f order (List.replicate n none) i (by simpa using hi)
        (Or.inr hmem)
    simp [transcribeAllTexts, hslot]

/-- Witness for C1: three segments completing in order 2, 0, 1 still give
texts in input order. -/
theorem transcribeAll_order_preserved_witness :
    ([2, 0, 1] : List ℕ).Perm (List.range 3) ∧ 1 ≤ 3 ∧
    (transcribeAllTexts (fun i => toString i) 3 [2, 0, 1]).length = 3 ∧
    (transcribeAllTexts (fun i => toString i) 3 [2, 0, 1])[1]? = some (toString 1) :=
  ⟨by decide, by decide,
   (transcribeAll_order_preserved (fun i => toString i) 3 [2, 0, 1]
      (by decide) (by decide)).1,
   (transcribeAll_order_preserved (fun i => toString i) 3 [2, 0, 1]
      (by decide) (by decide)).2 1 (by decide)⟩

/-! ## Per-segment transcription (backend/ai/aisha_stt.py, lines 23-58)

`transcribe_segment` posts the audio to the AISHA API and returns the
transcription text; a non-200 status returns `""`, any raised exception
(network error, JSON decoding, ...) is caught and returns `""`.  The remote
outcome for one segment is modeled as explicit data. -/

/-- Outcome of the remote STT call for one segment: either the request
raised (caught by the `except` clause, lines 56-58), or a response with an
HTTP status code and the optional `text` / `transcript` JSON fields. -/
inductive STTOutcome where
  | exc : STTOutcome
  | resp (status : ℕ) (text transcript : Option String) : STTOutcome
  deriving DecidableEq, Repr

/-- Function `transcribe_segment` (aisha_stt.py, lines 44-58) as a function of the
remote outcome: non-200 and exceptions give `""`; otherwise the text is
`result.get("text", "") or result.get("transcript", "") or ""`, stripped
(Python `or` keeps the first non-empty string). -/
def transcribe_segment : STTOutcome → String
  | .exc => ""
  | .resp status text transcript =>
    if status ≠ 200 then ""
    else
      pyStrip
        (if text.getD "" ≠ "" then text.getD ""
         else if transcript.getD "" ≠ "" then transcript.getD ""
         else "")

/-- A failing outcome: raised exception or non-200 HTTP response. -/
def sttFailed : STTOutcome → Bool
  | .exc => true
  | .resp status _ _ => status ≠ 200

/-- The whole batch: fan-out where segment `i`'s text is
`transcribe_segment` applied to its own remote outcome. -/
def transcribeBatch (outcomes : ℕ → STTOutcome) (n : ℕ) (order : List ℕ) : List String :=
  transcribeAllTexts (fun i => transcribe_segment (outcomes i)) n order

theorem transcribe_segment_of_failed (o : STTOutcome) (h : sttFailed o = true) :
    transcribe_segment o = "" := by
  cases o with
  | exc => rfl
  | resp status text transcript =>
    simp only [sttFailed, decide_eq_true_eq] at h
    simp [transcribe_segment, h]

/-- C2: if the remote call for segment `j` fails (exception or non-200),
the batch still returns `n` results, result `j` is the empty string, and
every other result is exactly the transcription of its own segment's
outcome — unaffected by the failure. -/
theorem transcribe_failure_isolation (outcomes : ℕ → STTOutcome) (n j : ℕ)
    (order : List ℕ) (hperm : order.Perm (List.range n)) (hj : j < n)
    (hfail : sttFailed (outcomes j) = true) :
    (transcribeBatch outcomes n order).length = n ∧
    (transcribeBatch outcomes n order)[j]? = some "" ∧
    ∀ i, i < n → i ≠ j →
      (transcribeBatch outcomes n order)[i]? = some (transcribe_segment (outcomes i)) := by
  have hmain := transcribeAll_order_preserved (fun i => transcribe_segment (outcomes i))
    n order hperm (Nat.one_le_iff_ne_zero.mpr (by omega))
  refine ⟨hmain.1, ?_, fun i hi _ => hmain.2 i hi⟩
  have hslot := hmain.2 j hj
  simpa [transcribeBatch, transcribe_segment_of_failed (outcomes j) hfail] using hslot

/-- Witness for C2: five segments, segment 3 hit a network error, shuffled
completion order; result 3 is `""` and result 0 is its own text. -/
theorem transcribe_failure_isolation_witness :
    (transcribeBatch
        (fun i => if i = 3 then .exc else .resp 200 (some ("t" ++ toString i)) none)
        5 [4, 2, 0, 3, 1]).length = 5 ∧
    (transcribeBatch
        (fun i => if i = 3 then .exc else .resp 200 (some ("t" ++ toString i)) none)
        5 [4, 2, 0, 3, 1])[3]? = some "" := by
  have h := transcribe_failure_isolation
    (fun i => if i = 3 then .exc else .resp 200 (some ("t" ++ toString i)) none)
    5 3 [4, 2, 0, 3, 1] (by decide) (by decide) (by decide)
  exact ⟨h.1, h.2.1⟩

/-! ## Alignment engine (backend/ai/whisper_api.py, lines 166-284)

`map_transcript_to_diarization` assigns Whisper's timestamped words (or
segments) to diarization windows by midpoint, then merges consecutive
same-speaker segments; with no timestamp data it falls back to a
proportional word distribution.  Tokens are normalized to one shape
(`start`, `end`, `text`): the source's attribute-or-dict access and
`word`-or-`text` field choice (lines 212-220) only pick these values out. -/

/-- A timestamped token (Whisper word or segment) with `start`, `end`
(named `stop`) and its text. -/
structure Token where
  start : ℚ
  stop : ℚ
  text : String
  deriving DecidableEq, Repr

/-- The parts collected for one diarization window (whisper_api.py,
lines 209-228): every token whose midpoint `(start + end) / 2` lies in the
window's `[start, end]` range, both ends inclusive, contributes its
stripped text when that text is non-empty. -/
def windowParts (tokens : List Token) (d : DiarSeg) : List String :=
  tokens.filterMap fun t =>
    if d.start ≤ (t.start + t.stop) / 2 ∧ (t.start + t.stop) / 2 ≤ d.stop ∧
        t.text ≠ "" then
      some (pyStrip t.text)
    else none

/-- A segment of the fallback distribution: `speaker`, `start`, `end` and
the window's words (the source's `" ".join(segment_words)` string is kept
as its word list). -/
structure FSeg where
  speaker : String
  start : ℚ
  stop : ℚ
  text : List String
  deriving DecidableEq, Repr

/-- Python `int()` on the proportional word count: truncation toward zero. -/
def intTrunc (q : ℚ) : ℤ :=
  if 0 ≤ q then ⌊q⌋ else ⌈q⌉

/-- The count `max(1, int(total_words * segment_proportion))` for one window
(whisper_api.py, lines 266-268). -/
def wordsFor (totalWords : ℕ) (totalDur : ℚ) (d : DiarSeg) : ℕ :=
  (max 1 (intTrunc ((totalWords : ℚ) * ((d.stop - d.start) / totalDur)))).toNat

/-- The fallback loop (whisper_api.py, lines 265-278): walks the windows
keeping the running `word_index` (`wi`); each window takes
`words[wi : wi + k]` with `k = max(1, int(...))` and `wi` advances by `k`
even when fewer words remain. -/
def fallbackLoop (words : List String) (totalWords : ℕ) (totalDur : ℚ) :
    List DiarSeg → ℕ → List FSeg
  | [], _ => []
  | d :: rest, wi =>
    let k := wordsFor totalWords totalDur d
    ⟨d.speaker, d.start, d.stop, (words.drop wi).take k⟩ ::
      fallbackLoop words totalWords totalDur rest (wi + k)

/-- Total diarization duration `sum(d["end"] - d["start"])`
(whisper_api.py, line 255). -/
def total_duration (diar : List DiarSeg) : ℚ :=
  (diar.map fun d => d.stop - d.start).sum

/-- The fix-up `result[-1]["text"] += " " + " ".join(words[word_index:])`
(whisper_api.py, lines 281-282): append the leftover words to the last
segment's text. -/
def appendLeftover (extra : List String) : List FSeg → List FSeg
  | [] => []
  | [s] => [{ s with text := s.text ++ extra }]
  | s :: s' :: rest => s :: appendLeftover extra (s' :: rest)

/-- Function `_fallback_distribution` (whisper_api.py, lines 246-284), on the word
list of the full text.  The two early returns hand back the diarization
dicts themselves, which carry no `text` key — modeled as windows with an
empty word list.  After the loop, the final `word_index` equals the sum of
the per-window counts; when words remain past it they are appended to the
last window. -/
def fallback_distribution (fullWords : List String) (diar : List DiarSeg) : List FSeg :=
  if fullWords = [] ∨ diar = [] then
    diar.map fun d => ⟨d.speaker, d.start, d.stop, []⟩
  else if total_duration diar = 0 then
    diar.map fun d => ⟨d.speaker, d.start, d.stop, []⟩
  else
    let totalWords := fullWords.length
    let result := fallbackLoop fullWords totalWords (total_duration diar) diar 0
    let wi := (diar.map (wordsFor totalWords (total_duration diar))).sum
    if wi < totalWords ∧ result ≠ [] then
      appendLeftover (fullWords.drop wi) result
    else
      result

/-- Function `map_transcript_to_diarization` (whisper_api.py, lines 166-243):
empty diarization returns one synthetic `SPEAKER_00` segment with
`start = 0` and `end = 0` holding the full text; with no timestamp data it
falls back to the proportional distribution; otherwise each diarization
window collects its tokens' stripped texts, space-joined, and the result is
merged by consecutive speaker. -/
def map_transcript_to_diarization (tokens : List Token) (fullText : String)
    (diar : List DiarSeg) : List TSeg :=
  if diar = [] then
    [⟨"SPEAKER_00", 0, 0, fullText⟩]
  else if tokens = [] then
    (fallback_distribution (pySplit fullText) diar).map fun s =>
      ⟨s.speaker, s.start, s.stop, String.intercalate " " s.text⟩
  else
    WhisperAPI.merge_consecutive_speakers <| diar.map fun d =>
      ⟨d.speaker, d.start, d.stop, String.intercalate " " (windowParts tokens d)⟩

/-- Counterexample to C8: with empty diarization the synthetic segment ends
at `0`, not at the recording's duration — here a 5-second recording whose
transcript is `"hi"` yields `end = 0 ≠ 5`. -/
theorem empty_diarization_counterexample :
    map_transcript_to_diarization [] "hi" [] = [⟨"SPEAKER_00", 0, 0, "hi"⟩] ∧
    ¬ ((0 : ℚ) = 5) := by
  exact ⟨rfl, by norm_num⟩

/-- C8 (amended): when the diarization sequence is empty, alignment returns
a single synthetic segment under the placeholder speaker `SPEAKER_00` with
`start = 0` and `end = 0`, holding the full transcript text; the case is
handled by a plain return, never fatal. -/
theorem empty_diarization_amended (tokens : List Token) (fullText : String) :
    map_transcript_to_diarization tokens fullText [] =
      [⟨"SPEAKER_00", 0, 0, fullText⟩] := by
  rfl

/-- A token whose midpoint lies outside a window's range contributes
nothing to that window's parts, whatever its text. -/
theorem windowParts_gap (t : Token) (tokens : List Token) (d : DiarSeg)
    (h : ¬ (d.start ≤ (t.start + t.stop) / 2 ∧ (t.start + t.stop) / 2 ≤ d.stop)) :
    windowParts (t :: tokens) d = windowParts tokens d := by
  have hcond : ¬ (d.start ≤ (t.start + t.stop) / 2 ∧ (t.start + t.stop) / 2 ≤ d.stop ∧
      t.text ≠ "") := by tauto
  unfold windowParts
  rw [List.filterMap_cons, if_neg hcond]

/-- Evaluation of the alignment on the spec's boundary example: the token
midpoint is `(1.4 + 1.6) / 2 = 1.5`, which lies in the inclusive ranges of
both `[0, 1.5]` and `[1.5, 3]`. -/
theorem boundary_example_eval :
    map_transcript_to_diarization [⟨7/5, 8/5, "hi"⟩] ""
        [⟨"S1", 0, 3/2⟩, ⟨"S2", 3/2, 3⟩] =
      [⟨"S1", 0, 3/2, "hi"⟩, ⟨"S2", 3/2, 3, "hi"⟩] := by
  unfold map_transcript_to_diarization
  rw [if_neg (by simp), if_neg (by simp)]
  simp only [List.map_cons, List.map_nil]
  norm_num [windowParts, List.filterMap_cons, List.filterMap_nil]
  rfl

/-- Counterexample to C5: the token `{start: 1.4, end: 1.6, text: "hi"}`
(midpoint exactly `1.5`) with windows `[{S1,0,1.5},{S2,1.5,3}]` is assigned
to BOTH windows, not to S1 only — each window collects every token whose
inclusive range contains the midpoint, independently of the others. -/
theorem token_midpoint_counterexample :
    map_transcript_to_diarization [⟨7/5, 8/5, "hi"⟩] ""
        [⟨"S1", 0, 3/2⟩, ⟨"S2", 3/2, 3⟩] =
      [⟨"S1", 0, 3/2, "hi"⟩, ⟨"S2", 3/2, 3, "hi"⟩] ∧
    "hi" ≠ "" := by
  exact ⟨boundary_example_eval, by decide⟩

/-- C5 (amended): a timestamped token is assigned to every diarization
window, in diarization order, whose `[start, end]` range (inclusive at both
ends) contains the token's midpoint — possibly more than one window when
windows abut or overlap at the midpoint — and a token whose midpoint falls
in a gap outside all windows is dropped; in particular the token
`{start: 1.4, end: 1.6, text: "hi"}` with windows `[{S1,0,1.5},{S2,1.5,3}]`
is assigned to both S1 and S2. -/
theorem token_midpoint_amended :
    (map_transcript_to_diarization [⟨7/5, 8/5, "hi"⟩] ""
        [⟨"S1", 0, 3/2⟩, ⟨"S2", 3/2, 3⟩] =
      [⟨"S1", 0, 3/2, "hi"⟩, ⟨"S2", 3/2, 3, "hi"⟩]) ∧
    ∀ (t : Token) (tokens : List Token) (fullText : String) (diar : List DiarSeg),
      tokens ≠ [] →
      (∀ d ∈ diar,
        ¬ (d.start ≤ (t.start + t.stop) / 2 ∧ (t.start + t.stop) / 2 ≤ d.stop)) →
      map_transcript_to_diarization (t :: tokens) fullText diar =
        map_transcript_to_diarization tokens fullText diar := by
  refine ⟨boundary_example_eval, ?_⟩
  intro t tokens fullText diar htok hgap
  rcases diar with _ | ⟨d0, drest⟩
  · rfl
  · unfold map_transcript_to_diarization
    rw [if_neg (by simp), if_neg (by simp), if_neg (by simp), if_neg htok]
    congr 1
    refine List.map_congr_left ?_
    intro d hd
    rw [windowParts_gap t tokens d (hgap d hd)]

/-- Witness for C5 (amended): a token with midpoint 11, outside both
windows, is dropped — prepending it does not change the alignment. -/
theorem token_midpoint_amended_witness :
    map_transcript_to_diarization [⟨10, 12, "zz"⟩, ⟨7/5, 8/5, "hi"⟩] "x"
        [⟨"S1", 0, 3/2⟩, ⟨"S2", 3/2, 3⟩] =
      map_transcript_to_diarization [⟨7/5, 8/5, "hi"⟩] "x"
        [⟨"S1", 0, 3/2⟩, ⟨"S2", 3/2, 3⟩] :=
  token_midpoint_amended.2 ⟨10, 12, "zz"⟩ [⟨7/5, 8/5, "hi"⟩] "x"
    [⟨"S1", 0, 3/2⟩, ⟨"S2", 3/2, 3⟩] (by decide)
    (by intro d hd; fin_cases hd <;> norm_num)

/-! ### The proportional fallback: word conservation and per-window counts -/

theorem fallbackLoop_ne_nil (words : List String) (tw : ℕ) (td : ℚ)
    (diar : List DiarSeg) (wi : ℕ) (h : diar ≠ []) :
    fallbackLoop words tw td diar wi ≠ [] := by
  cases diar with
  | nil => exact absurd rfl h
  | cons d rest => simp [fallbackLoop]

theorem fallbackLoop_length (words : List String) (tw : ℕ) (td : ℚ) :
    ∀ (diar : List DiarSeg) (wi : ℕ),
      (fallbackLoop words tw td diar wi).length = diar.length := by
  intro diar
  induction diar with
  | nil => intro wi; rfl
  | cons d rest ih => intro wi; simp [fallbackLoop, ih]

/-- The loop's texts, joined, are the next `Σ k` words of the stream
starting at the running index: each window's slice is contiguous with the
next window's. -/
theorem fallbackLoop_flatten (words : List String) (tw : ℕ) (td : ℚ) :
    ∀ (diar : List DiarSeg) (wi : ℕ),
      ((fallbackLoop words tw td diar wi).map FSeg.text).flatten =
        (words.drop wi).take ((diar.map (wordsFor tw td)).sum) := by
  intro diar
  induction diar with
  | nil => intro wi; simp [fallbackLoop]
  | cons d rest ih =>
    intro wi
    simp only [fallbackLoop, List.map_cons, List.flatten_cons, List.sum_cons]
    rw [ih (wi + wordsFor tw td d), List.take_add]
    congr 1
    rw [List.drop_drop, Nat.add_comm wi (wordsFor tw td d)]

theorem appendLeftover_length (extra : List String) :
    ∀ l : List FSeg, (appendLeftover extra l).length = l.length := by
  intro l
  induction l with
  | nil => rfl
  | cons s tail ih =>
    cases tail with
    | nil => rfl
    | cons s' rest => simpa [appendLeftover] using ih

/-- Appending the leftover words to the last segment appends them to the
joined texts. -/
theorem appendLeftover_flatten (extra : List String) :
    ∀ l : List FSeg, l ≠ [] →
      ((appendLeftover extra l).map FSeg.text).flatten =
        (l.map FSeg.text).flatten ++ extra := by
  intro l
  induction l with
  | nil => intro h; exact absurd rfl h
  | cons s tail ih =>
    intro _
    cases tail with
    | nil => simp [appendLeftover]
    | cons s' rest =>
      simp only [appendLeftover, List.map_cons, List.flatten_cons,
        ih (by simp), List.append_assoc]

/-- Evaluation of the spec's concrete case: ten words over two equal-length
windows give five words to each, with nothing left over. -/
theorem fallback_ten_words_eval :
    fallback_distribution
        ["w1", "w2", "w3", "w4", "w5", "w6", "w7", "w8", "w9", "w10"]
        [⟨"A", 0, 5⟩, ⟨"B", 5, 10⟩] =
      [⟨"A", 0, 5, ["w1", "w2", "w3", "w4", "w5"]⟩,
       ⟨"B", 5, 10, ["w6", "w7", "w8", "w9", "w10"]⟩] := by
  have hdur : total_duration [(⟨"A", 0, 5⟩ : DiarSeg), ⟨"B", 5, 10⟩] = 10 := by
    norm_num [total_duration]
  have hA : wordsFor 10 10 ⟨"A", 0, 5⟩ = 5 := by
    norm_num [wordsFor, intTrunc]
    decide
  have hB : wordsFor 10 10 ⟨"B", 5, 10⟩ = 5 := by
    norm_num [wordsFor, intTrunc]
    decide
  unfold fallback_distribution
  rw [if_neg (by simp), hdur, if_neg (by norm_num)]
  simp only [List.length_cons, List.length_nil, fallbackLoop, List.map_cons,
    List.map_nil, List.sum_cons, List.sum_nil, hA, hB]
  norm_num

/-- C7: the proportional fallback conserves words — for every non-empty
word stream and diarization with positive total duration, the window texts
concatenated in order are exactly the original word sequence, nothing lost
or duplicated; with ten words and two windows of equal duration each window
receives five words. -/
theorem fallback_word_conservation (fullWords : List String) (diar : List DiarSeg)
    (hw : fullWords ≠ []) (hdur : 0 < total_duration diar) :
    ((fallback_distribution fullWords diar).map FSeg.text).flatten = fullWords ∧
    fallback_distribution
        ["w1", "w2", "w3", "w4", "w5", "w6", "w7", "w8", "w9", "w10"]
        [⟨"A", 0, 5⟩, ⟨"B", 5, 10⟩] =
      [⟨"A", 0, 5, ["w1", "w2", "w3", "w4", "w5"]⟩,
       ⟨"B", 5, 10, ["w6", "w7", "w8", "w9", "w10"]⟩] := by
  refine ⟨?_, fallback_ten_words_eval⟩
  have hdne : diar ≠ [] := by
    rintro rfl
    simp [total_duration] at hdur
  unfold fallback_distribution
  rw [if_neg (by simp [hw, hdne]), if_neg hdur.ne']
  by_cases hK : (diar.map (wordsFor fullWords.length (total_duration diar))).sum <
      fullWords.length ∧
      fallbackLoop fullWords fullWords.length (total_duration diar) diar 0 ≠ []
  · rw [if_pos hK, appendLeftover_flatten _ _ hK.2, fallbackLoop_flatten]
    simp [List.take_append_drop]
  · rw [if_neg hK, fallbackLoop_flatten]
    have hloop := fallbackLoop_ne_nil fullWords fullWords.length
      (total_duration diar) diar 0 hdne
    have hle : fullWords.length ≤
        (diar.map (wordsFor fullWords.length (total_duration diar))).sum := by
      rcases Classical.em ((diar.map (wordsFor fullWords.length
          (total_duration diar))).sum < fullWords.length) with h | h
      · exact absurd ⟨h, hloop⟩ hK
      · omega
    simp only [List.drop_zero]
    exact List.take_of_length_le hle

/-- Witness for C7: two words, one window — conservation at a concrete
input. -/
theorem fallback_word_conservation_witness :
    ((fallback_distribution ["a", "b"] [⟨"A", 0, 1⟩]).map FSeg.text).flatten =
      ["a", "b"] :=
  (fallback_word_conservation ["a", "b"] [⟨"A", 0, 1⟩] (by decide)
    (by norm_num [total_duration])).1

/-- Where window `j`'s slice of the word stream starts: the sum of the
earlier windows' word counts (the value of `word_index` when the loop
reaches window `j`). -/
def fallbackStart (tw : ℕ) (td : ℚ) (diar : List DiarSeg) (j : ℕ) : ℕ :=
  ((diar.take j).map (wordsFor tw td)).sum

/-- Element `j` of the fallback loop: window `j`'s dict with the slice
`words[wi + start_j : wi + start_j + k_j]`. -/
theorem fallbackLoop_get (words : List String) (tw : ℕ) (td : ℚ) :
    ∀ (diar : List DiarSeg) (wi j : ℕ) (d : DiarSeg), diar[j]? = some d →
      (fallbackLoop words tw td diar wi)[j]? =
        some ⟨d.speaker, d.start, d.stop,
          (words.drop (wi + ((diar.take j).map (wordsFor tw td)).sum)).take
            (wordsFor tw td d)⟩ := by
  intro diar
  induction diar with
  | nil => intro wi j d h; simp at h
  | cons d0 rest ih =>
    intro wi j d h
    cases j with
    | zero =>
      simp only [List.getElem?_cons_zero, Option.some_inj] at h
      subst h
      simp [fallbackLoop]
    | succ j' =>
      simp only [List.getElem?_cons_succ] at h
      simp only [fallbackLoop, List.getElem?_cons_succ, List.take_succ_cons,
        List.map_cons, List.sum_cons]
      rw [ih (wi + wordsFor tw td d0) j' d h, Nat.add_assoc]

theorem appendLeftover_get_ne_last (extra : List String) :
    ∀ (l : List FSeg) (j : ℕ), j + 1 < l.length →
      (appendLeftover extra l)[j]? = l[j]? := by
  intro l
  induction l with
  | nil => intro j h; simp at h
  | cons s tail ih =>
    intro j h
    cases tail with
    | nil => simp at h
    | cons s' rest =>
      cases j with
      | zero => simp [appendLeftover]
      | succ j' =>
        simp only [appendLeftover, List.getElem?_cons_succ]
        exact ih j' (by simpa using h)

theorem appendLeftover_get_last (extra : List String) :
    ∀ (l : List FSeg) (j : ℕ) (s : FSeg), j + 1 = l.length → l[j]? = some s →
      (appendLeftover extra l)[j]? = some { s with text := s.text ++ extra } := by
  intro l
  induction l with
  | nil => intro j s _ hs; simp at hs
  | cons s0 tail ih =>
    intro j s h hs
    cases tail with
    | nil =>
      have hj : j = 0 := by simpa using h
      subst hj
      simp only [List.getElem?_cons_zero, Option.some_inj] at hs
      subst hs
      simp [appendLeftover]
    | cons s' rest =>
      cases j with
      | zero => simp only [List.length_cons] at h; omega
      | succ j' =>
        simp only [appendLeftover, List.getElem?_cons_succ]
        exact ih j' s (by simpa using h) (by simpa using hs)

/-- Splitting the total count at the last window: the counts before the
last window plus the last window's count give the whole sum. -/
theorem sum_take_last (f : DiarSeg → ℕ) :
    ∀ (diar : List DiarSeg) (j : ℕ) (d : DiarSeg),
      diar[j]? = some d → j + 1 = diar.length →
      ((diar.take j).map f).sum + f d = (diar.map f).sum := by
  intro diar
  induction diar with
  | nil => intro j d h _; simp at h
  | cons d0 rest ih =>
    intro j d h hlen
    cases j with
    | zero =>
      simp only [List.length_cons] at hlen
      have hrest : rest = [] := List.length_eq_zero.mp (by omega)
      subst hrest
      simp only [List.getElem?_cons_zero, Option.some_inj] at h
      subst h
      simp
    | succ j' =>
      simp only [List.length_cons] at hlen
      simp only [List.getElem?_cons_succ] at h
      simp only [List.take_succ_cons, List.map_cons, List.sum_cons]
      rw [Nat.add_assoc, ih j' d h (by omega)]

/-- Counterexample to C6: the code truncates the proportional count with
Python `int()`, it does not round.  With three words over two equal
windows the claimed count for window one is `max(1, round(1.5)) = 2`, but
the code gives `max(1, int(1.5)) = 1` word (`["a"]`), the rest flowing to
the last window. -/
theorem fallback_round_counterexample :
    fallback_distribution ["a", "b", "c"] [⟨"S1", 0, 1⟩, ⟨"S2", 1, 2⟩] =
      [⟨"S1", 0, 1, ["a"]⟩, ⟨"S2", 1, 2, ["b", "c"]⟩] ∧
    max 1 (round ((3 : ℚ) * (1 / 2))) = 2 ∧
    ([("a" : String)] : List String).length ≠ 2 := by
  refine ⟨?_, by rw [round_eq]; norm_num, by decide⟩
  have hdur : total_duration [(⟨"S1", 0, 1⟩ : DiarSeg), ⟨"S2", 1, 2⟩] = 2 := by
    norm_num [total_duration]
  have h1 : wordsFor 3 2 ⟨"S1", 0, 1⟩ = 1 := by
    norm_num [wordsFor, intTrunc]
  have h2 : wordsFor 3 2 ⟨"S2", 1, 2⟩ = 1 := by
    norm_num [wordsFor, intTrunc]
  unfold fallback_distribution
  rw [if_neg (by simp), hdur, if_neg (by norm_num)]
  simp only [List.length_cons, List.length_nil, fallbackLoop, List.map_cons,
    List.map_nil, List.sum_cons, List.sum_nil, h1, h2]
  norm_num [appendLeftover]
  simp

/-- C6 (amended): each diarization window receives
`max(1, floor(totalWords × windowDuration/totalDuration))` words — Python
`int()` truncation, not rounding — taken in order from the remaining word
stream: window `j`'s text is the slice of length `k_j` starting at the sum
of the earlier windows' counts, and the words left over after the last
window are appended to the last window's text, whose words are therefore
the whole remaining stream from its start index on. -/
theorem fallback_per_window (fullWords : List String) (diar : List DiarSeg)
    (hw : fullWords ≠ []) (hdur : total_duration diar ≠ 0) :
    (fallback_distribution fullWords diar).length = diar.length ∧
    (∀ j d, diar[j]? = some d → j + 1 ≠ diar.length →
      (fallback_distribution fullWords diar)[j]? =
        some ⟨d.speaker, d.start, d.stop,
          (fullWords.drop
              (fallbackStart fullWords.length (total_duration diar) diar j)).take
            (wordsFor fullWords.length (total_duration diar) d)⟩) ∧
    (∀ j d, diar[j]? = some d → j + 1 = diar.length →
      (fallback_distribution fullWords diar)[j]? =
        some ⟨d.speaker, d.start, d.stop,
          fullWords.drop
            (fallbackStart fullWords.length (total_duration diar) diar j)⟩) := by
  have hdne : diar ≠ [] := by
    rintro rfl
    simp [total_duration] at hdur
  have hbody : fallback_distribution fullWords diar =
      if (diar.map (wordsFor fullWords.length (total_duration diar))).sum <
            fullWords.length ∧
          fallbackLoop fullWords fullWords.length (total_duration diar) diar 0 ≠ [] then
        appendLeftover
          (fullWords.drop
            ((diar.map (wordsFor fullWords.length (total_duration diar))).sum))
          (fallbackLoop fullWords fullWords.length (total_duration diar) diar 0)
      else
        fallbackLoop fullWords fullWords.length (total_duration diar) diar 0 := by
    unfold fallback_distribution
    rw [if_neg (by simp [hw, hdne]), if_neg hdur]
  have hlooplen :
      (fallbackLoop fullWords fullWords.length (total_duration diar) diar 0).length =
        diar.length := fallbackLoop_length _ _ _ diar 0
  refine ⟨?_, ?_, ?_⟩
  · rw [hbody]
    by_cases hc : (diar.map (wordsFor fullWords.length (total_duration diar))).sum <
          fullWords.length ∧
        fallbackLoop fullWords fullWords.length (total_duration diar) diar 0 ≠ []
    · rw [if_pos hc, appendLeftover_length, hlooplen]
    · rw [if_neg hc, hlooplen]
  · intro j d hj hne
    have hjlen : j < diar.length := by
      by_contra hge
      rw [List.getElem?_eq_none (by omega)] at hj
      exact Option.noConfusion hj
    have hget := fallbackLoop_get fullWords fullWords.length (total_duration diar)
      diar 0 j d hj
    rw [Nat.zero_add] at hget
    rw [hbody]
    by_cases hc : (diar.map (wordsFor fullWords.length (total_duration diar))).sum <
          fullWords.length ∧
        fallbackLoop fullWords fullWords.length (total_duration diar) diar 0 ≠ []
    · rw [if_pos hc, appendLeftover_get_ne_last _ _ j (by rw [hlooplen]; omega)]
      exact hget
    · rw [if_neg hc]
      exact hget
  · intro j d hj hlast
    have hget := fallbackLoop_get fullWords fullWords.length (total_duration diar)
      diar 0 j d hj
    rw [Nat.zero_add] at hget
    have hsum := sum_take_last (wordsFor fullWords.length (total_duration diar))
      diar j d hj hlast
    rw [hbody]
    by_cases hc : (diar.map (wordsFor fullWords.length (total_duration diar))).sum <
          fullWords.length ∧
        fallbackLoop fullWords fullWords.length (total_duration diar) diar 0 ≠ []
    · rw [if_pos hc,
        appendLeftover_get_last _ _ j _ (by rw [hlooplen]; exact hlast) hget]
      simp only [Option.some_inj, FSeg.mk.injEq, fallbackStart]
      refine ⟨trivial, trivial, trivial, ?_⟩
      rw [← hsum]
      exact List.drop_take_append_drop fullWords _ _
    · rw [if_neg hc, hget]
      have hKge : fullWords.length ≤
          (diar.map (wordsFor fullWords.length (total_duration diar))).sum := by
        by_contra hlt
        exact hc ⟨by omega, fallbackLoop_ne_nil _ _ _ _ _ hdne⟩
      simp only [Option.some_inj, FSeg.mk.injEq, fallbackStart]
      refine ⟨trivial, trivial, trivial, ?_⟩
      apply List.take_of_length_le
      rw [List.length_drop]
      omega

/-- Witness for C6 (amended): three words over two equal windows — window 0
gets its truncated count's slice, window 1 (the last) gets the whole
remaining stream. -/
theorem fallback_per_window_witness :
    (fallback_distribution ["a", "b", "c"] [⟨"S1", 0, 1⟩, ⟨"S2", 1, 2⟩]).length =
      ([⟨"S1", 0, 1⟩, ⟨"S2", 1, 2⟩] : List DiarSeg).length ∧
    (fallback_distribution ["a", "b", "c"] [⟨"S1", 0, 1⟩, ⟨"S2", 1, 2⟩])[1]? =
      some ⟨"S2", 1, 2,
        (["a", "b", "c"] : List String).drop
          (fallbackStart (["a", "b", "c"] : List String).length
            (total_duration [⟨"S1", 0, 1⟩, ⟨"S2", 1, 2⟩])
            [⟨"S1", 0, 1⟩, ⟨"S2", 1, 2⟩] 1)⟩ := by
  have h := fallback_per_window ["a", "b", "c"] [⟨"S1", 0, 1⟩, ⟨"S2", 1, 2⟩]
    (by decide) (by norm_num [total_duration])
  exact ⟨h.1, h.2.2 1 ⟨"S2", 1, 2⟩ rfl rfl⟩

/-! ## PyAnnote AI diarization submission (backend/ai/pyannoteai.py) -/

/-- The JSON body `submit` posts (pyannoteai.py, line 72):
`data = {"url": audio_url, "numSpeakers": 2}`. -/
structure SubmitPayload where
  url : String
  numSpeakers : ℕ
  deriving DecidableEq, Repr

/-- The request body built by `PyAnnoteAI.submit` (pyannoteai.py,
lines 62-73): the only parameter is the audio URL; the speaker count is
the literal `2`. -/
def submit_request_data (audio_url : String) : SubmitPayload :=
  { url := audio_url, numSpeakers := 2 }

/-- Enum `PyAnnoteAI_Status` (pyannoteai.py, lines 20-31): a `StrEnum` whose
values are the lowercase member names. -/
inductive PyAnnoteAI_Status where
  | PENDING
  | CREATED
  | RUNNING
  | SUCCEEDED
  | FAILED
  | CANCELED
  | INVALID_REQUEST
  | TOO_MANY_REQUESTS
  | PAYMENT_REQUIRED
  | UNKNOWN
  deriving DecidableEq, Repr

/-- The `StrEnum` by-value lookup `PyAnnoteAI_Status(st)`: `none` models the
`ValueError` Python raises when `st` is not a member value. -/
def statusOfString : String → Option PyAnnoteAI_Status
  | "pending" => some .PENDING
  | "created" => some .CREATED
  | "running" => some .RUNNING
  | "succeeded" => some .SUCCEEDED
  | "failed" => some .FAILED
  | "canceled" => some .CANCELED
  | "invalid_request" => some .INVALID_REQUEST
  | "too_many_requests" => some .TOO_MANY_REQUESTS
  | "payment_required" => some .PAYMENT_REQUIRED
  | "unknown" => some .UNKNOWN
  | _ => none

/-- Python `str.lower()` (structurally recursive model over the string's
characters). -/
def pyLower (s : String) : String :=
  String.mk (s.data.map Char.toLower)

/-- The JSON body of a job-status response; `status` is the optional
`"status"` field (`data.get("status", "unknown")` defaults it to
`"unknown"`).  The rest of the payload is irrelevant to classification and
not modeled. -/
structure JobJson where
  status : Option String
  deriving DecidableEq, Repr

/-- A job-status HTTP response: status code plus parsed JSON body. -/
structure JobResponse where
  code : ℕ
  json : JobJson
  deriving DecidableEq, Repr

/-- Method `PyAnnoteAI.check_job` (pyannoteai.py, lines 90-115) as a function of
the HTTP response: codes 400/402/429 map to fixed statuses with no data;
otherwise the JSON `status` field (defaulted to `"unknown"` when absent) is
lowercased and looked up in the enum — an unrecognized value makes the
lookup raise `ValueError`, modeled by `Except.error` carrying the string. -/
def check_job (resp : JobResponse) : Except String (PyAnnoteAI_Status × Option JobJson) :=
  if resp.code = 400 then .ok (.INVALID_REQUEST, none)
  else if resp.code = 402 then .ok (.PAYMENT_REQUIRED, none)
  else if resp.code = 429 then .ok (.TOO_MANY_REQUESTS, none)
  else
    match statusOfString (pyLower (resp.json.status.getD "unknown")) with
    | some s => .ok (s, some resp.json)
    | none => .error (pyLower (resp.json.status.getD "unknown"))

/-- Counterexample to C9: a 200 response whose `status` field holds the
unrecognized string `"exploding"` makes `check_job` raise (the enum
constructor's `ValueError`) instead of classifying the response. -/
theorem check_job_counterexample :
    check_job ⟨200, ⟨some "exploding"⟩⟩ = Except.error "exploding" := by
  rfl

/-- C9 (amended): `check_job` classifies a response into the enumeration
exactly when the HTTP code is 400, 402 or 429 or the (lowercased,
`"unknown"`-defaulted) status string is a recognized enum value; a missing
status field on an ordinary code is classified as UNKNOWN with the payload
returned; but a response carrying an unrecognized status string makes
`check_job` itself raise `ValueError` rather than be classified. -/
theorem check_job_classification (resp : JobResponse) :
    ((∃ s p, check_job resp = Except.ok (s, p)) ↔
      (resp.code = 400 ∨ resp.code = 402 ∨ resp.code = 429 ∨
        (statusOfString (pyLower (resp.json.status.getD "unknown"))).isSome = true)) ∧
    (resp.json.status = none → resp.code ≠ 400 → resp.code ≠ 402 → resp.code ≠ 429 →
      check_job resp = Except.ok (.UNKNOWN, some resp.json)) := by
  unfold check_job
  by_cases h400 : resp.code = 400
  · simp [h400]
  · by_cases h402 : resp.code = 402
    · simp [h400, h402]
    · by_cases h429 : resp.code = 429
      · simp [h400, h402, h429]
      · rw [if_neg h400, if_neg h402, if_neg h429]
        cases hs : statusOfString (pyLower (resp.json.status.getD "unknown")) with
        | some s =>
          constructor
          · simp [hs]
          · intro hst _ _ _
            rw [hst] at hs
            have hu : statusOfString (pyLower ((none : Option String).getD "unknown")) =
                some PyAnnoteAI_Status.UNKNOWN := rfl
            rw [hu, Option.some_inj] at hs
            simp [hs, hst]
        | none =>
          constructor
          · simp [hs, h400, h402, h429]
          · intro hst _ _ _
            rw [hst] at hs
            have hu : statusOfString (pyLower ((none : Option String).getD "unknown")) =
                some PyAnnoteAI_Status.UNKNOWN := rfl
            rw [hu] at hs
            exact Option.noConfusion hs

/-- Witness for C9 (amended): a 200 response with no `status` field is
classified as UNKNOWN, payload returned. -/
theorem check_job_classification_witness :
    check_job ⟨200, ⟨none⟩⟩ = Except.ok (PyAnnoteAI_Status.UNKNOWN, some ⟨none⟩) :=
  (check_job_classification ⟨200, ⟨none⟩⟩).2 rfl (by decide) (by decide) (by decide)

/-- C10: for every audio URL the diarization submission body is exactly
`{url: audioUrl, numSpeakers: 2}`; `submit` takes no speaker-count
argument, so no caller-supplied value can change the hard-coded `2`. -/
theorem submit_two_speakers (audio_url : String) :
    submit_request_data audio_url = { url := audio_url, numSpeakers := 2 } ∧
    (submit_request_data audio_url).numSpeakers = 2 := by
  exact ⟨rfl, rfl⟩

end Ovozly
